import Mathlib

/-!
Verification of the content-analysis core and interaction services of the
content-management platform.

The analysis pipeline lives in `src/entities/content/content.service.js`:
`performContentAnalysis` extracts readable text from markup (via the
Readability library, modelled here as an abstract `Option String` article),
computes `wordCount` as `article.textContent.split(/\s+/).length`,
`readingTime` as `Math.ceil(wordCount / 200)`, auto tags from a fresh
per-call TfIdf instance (`listTerms(0).slice(0, 5)`), and a suggested
category from a running-maximum keyword-presence loop over the taxonomy.
`analyzeContentService` short-circuits blank input to an all-default
result.  `toggleFollowService` lives in
`src/entities/interactions/interactions.service.js`.
-/

namespace CMP

/-- Model of the JavaScript `\s` character class (whitespace), covering the
ASCII whitespace characters that JS regexes treat as whitespace. -/
def isWs (c : Char) : Bool :=
  c == ' ' || c == '\t' || c == '\n' || c == '\r' || c == '\x0b' || c == '\x0c'

/-- One step bound: fuel-indexed splitter implementing the semantics of the
JavaScript expression `s.split(/\s+/)`: fields are the (possibly empty)
substrings between maximal whitespace runs; a string that starts (resp.
ends) with whitespace contributes an empty first (resp. last) field, and
the empty string yields the single field `""`.  The fuel is structural
bookkeeping only; `splitWs` supplies enough fuel for the whole input. -/
def splitWsFuel : Nat → List Char → List Char → List (List Char)
  | 0, _, acc => [acc.reverse]
  | fuel + 1, s, acc =>
    match s with
    | [] => [acc.reverse]
    | c :: cs =>
      if isWs c then acc.reverse :: splitWsFuel fuel (cs.dropWhile isWs) []
      else splitWsFuel fuel cs (c :: acc)

/-- The JavaScript `s.split(/\s+/)` field list of a character list. -/
def splitWs (s : List Char) : List (List Char) :=
  splitWsFuel (s.length + 1) s []

/-- Model of JavaScript `String.prototype.trim`: drop whitespace from both
ends. -/
def jsTrim (s : List Char) : List Char :=
  ((s.dropWhile isWs).reverse.dropWhile isWs).reverse

/-- Model of JavaScript `String.prototype.toLowerCase` (ASCII-faithful). -/
def jsToLower (s : List Char) : List Char :=
  s.map Char.toLower

/-- Lowercase a string, as `keyword.toLowerCase()` does in the classifier. -/
def lowerStr (s : String) : String :=
  String.mk (jsToLower s.data)

/-- A word character for the `natural` `WordTokenizer`: alphanumeric or
underscore; every other character separates tokens. -/
def isWordChar (c : Char) : Bool :=
  c.isAlphanum || c == '_'

/-- Modelled from the spec: the `natural` library's `WordTokenizer`
(`tokenizer.tokenize`), whose source is not part of this repository.  It
splits the text on runs of non-word characters and discards empty tokens
("tokenizes text into words"). -/
def tokenizeGo : List Char → List Char → List String
  | [], acc => if acc.isEmpty then [] else [String.mk acc.reverse]
  | c :: cs, acc =>
    if isWordChar c then tokenizeGo cs (c :: acc)
    else if acc.isEmpty then tokenizeGo cs []
    else String.mk acc.reverse :: tokenizeGo cs []

/-- Tokens of the lowercased text, as both the classifier
(`tokenizer.tokenize(textContent.toLowerCase())`, line 37) and the TfIdf
document builder compute them. -/
def docTokens (s : String) : List String :=
  tokenizeGo (jsToLower s.data) []

/-- A taxonomy entry: `{ name, keywords }` as stored in the Category
collection and consumed by `performContentAnalysis` (lines 39-50). -/
structure CategoryDef where
  name : String
  keywords : List String
deriving DecidableEq

/-- The composite analysis result assembled at lines 53-58 of
`content.service.js`. -/
structure AnalysisResult where
  wordCount : Nat
  readingTime : Nat
  autoTags : List String
  suggestedCategory : String
deriving DecidableEq

/-- `wordCount` (line 23): `article ? article.textContent.split(/\s+/).length : 0`.
The extracted article is modelled as `Option String` (`none` when
`reader.parse()` returns `null`). -/
def wordCountOf (article : Option String) : Nat :=
  match article with
  | some t => (splitWs t.data).length
  | none => 0

/-- `readingTime` (line 24): `Math.ceil(wordCount / 200)`. -/
def readingTimeOf (wordCount : Nat) : Nat :=
  ⌈(wordCount : ℚ) / 200⌉₊

/-- The score the classifier loop gives one category (lines 40-45): for
each entry of `cat.keywords`, add 1 when
`contentTokens.includes(keyword.toLowerCase())`. -/
def categoryScore (tokens : List String) (cat : CategoryDef) : Nat :=
  cat.keywords.countP (fun k => tokens.contains (lowerStr k))

/-- The classifier's `forEach` running-maximum loop (lines 36-50): a
category replaces the running best exactly when its score is strictly
greater than the current maximum. -/
def classifyLoop (tokens : List String) :
    List CategoryDef → Nat → String → String
  | [], _, best => best
  | cat :: cats, maxMatches, best =>
    let currentMatches := categoryScore tokens cat
    if maxMatches < currentMatches then
      classifyLoop tokens cats currentMatches cat.name
    else
      classifyLoop tokens cats maxMatches best

/-- The category-suggestion block (lines 33-51): start from the sentinel
`"Uncategorized"`, and run the loop over the fetched taxonomy only when it
is non-empty. -/
def performClassify (textContent : String) (categories : List CategoryDef) : String :=
  if 0 < categories.length then
    classifyLoop (docTokens textContent) categories 0 "Uncategorized"
  else "Uncategorized"

/-- The running maximum of `categoryScore` over a taxonomy, seeded at `m`
(the classifier's `maxMatches` accumulator). -/
def runMax (tokens : List String) (cats : List CategoryDef) (m : Nat) : Nat :=
  cats.foldl (fun acc cat => max acc (categoryScore tokens cat)) m

/-- The state of one `natural.TfIdf` instance: the list of documents added
so far, each stored as its token list. -/
structure TfIdfState where
  documents : List (List String)
deriving DecidableEq

/-- `new natural.TfIdf()` (line 28): a fresh instance holds no documents. -/
def tfidfNew : TfIdfState := ⟨[]⟩

/-- `tfidf.addDocument(text)` (line 29): lowercases and tokenizes the text
and appends it as one more document. -/
def tfidfAddDocument (st : TfIdfState) (text : String) : TfIdfState :=
  ⟨st.documents ++ [docTokens text]⟩

/-- The distinct terms of a token list in order of first occurrence (the
key-insertion order of the TfIdf document's term table). -/
def firstOcc : List String → List String
  | [] => []
  | t :: ts => t :: (firstOcc ts).filter (fun u => u ≠ t)

/-- One step of the stable descending ranking: place `t` before the first
element whose weight does not exceed `t`'s, so that earlier-inserted terms
win ties (JS `Array.prototype.sort` is stable). -/
def insertRanked (cnt : String → Nat) (t : String) : List String → List String
  | [] => [t]
  | u :: us =>
    if cnt u ≤ cnt t then t :: u :: us
    else u :: insertRanked cnt t us

/-- Stable sort of terms by descending weight. -/
def rankSort (cnt : String → Nat) : List String → List String
  | [] => []
  | t :: ts => insertRanked cnt t (rankSort cnt ts)

/-- Modelled from the spec: `tfidf.listTerms(i)` of the `natural` library,
whose source is not part of this repository.  For the single-document
corpus built at lines 28-29 the inverse-document-frequency factor is the
same positive constant for every term of the document, so the observable
ranking is raw term frequency, descending, with ties broken by first
occurrence in the tokenized sequence (stable order). -/
def tfidfListTerms (st : TfIdfState) (i : Nat) : List String :=
  match st.documents.get? i with
  | some toks => rankSort (fun t => toks.count t) (firstOcc toks)
  | none => []

/-- `autoTags` (lines 28-30): a fresh TfIdf instance per call, one document,
`listTerms(0).slice(0, 5).map(item => item.term)`. -/
def autoTagsOf (text : String) : List String :=
  (tfidfListTerms (tfidfAddDocument tfidfNew text) 0).take 5

/-- The frequency of a term in the document built from `text`. -/
def termFreq (text : String) (t : String) : Nat :=
  (docTokens text).count t

/-- `performContentAnalysis` (lines 17-59) with the two external
collaborators abstracted: `article` is the Readability extraction result
(`none` when `reader.parse()` returns `null`), `categories` is the taxonomy
snapshot returned by `Category.find({})`. -/
def performContentAnalysis (article : Option String) (categories : List CategoryDef) :
    AnalysisResult :=
  let wordCount := wordCountOf article
  let readingTime := readingTimeOf wordCount
  let textContent := match article with | some a => a | none => ""
  { wordCount := wordCount
    readingTime := readingTime
    autoTags := autoTagsOf textContent
    suggestedCategory := performClassify textContent categories }

/-- The all-default result returned by the orchestrator's short circuit
(lines 211-216). -/
def defaultAnalysisResult : AnalysisResult :=
  { wordCount := 0, readingTime := 0, autoTags := [], suggestedCategory := "Uncategorized" }

/-- `analyzeContentService` (lines 208-219): blank input
(`!textBody || textBody.trim().length === 0`) short-circuits to the
default result; otherwise the full analysis runs on the extracted article.
`extract` abstracts the JSDOM/Readability extraction applied to
`textBody` inside `performContentAnalysis`. -/
def analyzeContentService (extract : String → Option String)
    (categories : List CategoryDef) (textBody : String) : AnalysisResult :=
  if textBody.data.length = 0 ∨ (jsTrim textBody.data).length = 0 then
    defaultAnalysisResult
  else
    performContentAnalysis (extract textBody) categories

/-- A sequence of independent `analyzeContentService` invocations.  This is
faithful to the source because every call allocates its own TfIdf instance
(line 28) and token array (line 37); the module-level `TfIdf` constant at
line 10 is never used, so no state flows between calls. -/
def analyzeBatch (extract : String → Option String)
    (categories : List CategoryDef) (markups : List String) : List AnalysisResult :=
  markups.map (analyzeContentService extract categories)

/-- One document of the Follow collection. -/
structure FollowRec where
  followerId : String
  followingId : String
deriving DecidableEq

/-- `toggleFollowService` (interactions.service.js lines 39-57) acting on an
explicit Follow collection: the self-follow guard throws before any
database operation, `Follow.findOne` is the first matching document,
`findByIdAndDelete` removes exactly that document, and `Follow.create`
appends a new one.  The collection after the call is returned together
with the outcome (`{ following }` or the thrown error message). -/
def toggleFollowService (db : List FollowRec) (followerId followingId : String) :
    List FollowRec × Except String Bool :=
  if followerId = followingId then
    (db, Except.error "Users cannot follow themselves.")
  else
    match db.find? (fun f => f.followerId == followerId && f.followingId == followingId) with
    | some f => (db.erase f, Except.ok false)
    | none => (db ++ [⟨followerId, followingId⟩], Except.ok true)

/-- Follows the spec's words (§4.2): the number of non-empty
whitespace-delimited tokens of a text.  Used to compare the source's
`split(/\s+/).length` against the specified count. -/
def specNonEmptyTokenCount (t : String) : Nat :=
  ((splitWs t.data).filter (fun f => !f.isEmpty)).length

/-! ### Helper lemmas about the whitespace splitter -/

theorem length_dropWhile_le (p : Char → Bool) (l : List Char) :
    (l.dropWhile p).length ≤ l.length := by
  induction l with
  | nil => simp
  | cons a l ih =>
    by_cases h : p a
    · rw [List.dropWhile_cons_of_pos h]; simp only [List.length_cons]; omega
    · rw [List.dropWhile_cons_of_neg h]

theorem dropWhile_head_false (p : Char → Bool) (l : List Char) (c : Char) (cs : List Char)
    (h : l.dropWhile p = c :: cs) : p c = false := by
  induction l with
  | nil => simp at h
  | cons a l ih =>
    by_cases ha : p a
    · rw [List.dropWhile_cons_of_pos ha] at h; exact ih h
    · rw [List.dropWhile_cons_of_neg ha] at h
      cases h; simpa using ha

theorem getLast?_dropWhile (p : Char → Bool) (l : List Char)
    (h : l.dropWhile p ≠ []) : (l.dropWhile p).getLast? = l.getLast? := by
  induction l with
  | nil => simp at h
  | cons a l ih =>
    by_cases ha : p a
    · rw [List.dropWhile_cons_of_pos ha] at h ⊢
      have hl : l ≠ [] := by
        intro hl; subst hl; simp at h
      rw [ih h]
      match l, hl with
      | b :: bs, _ => rw [List.getLast?_cons_cons]
    · rw [List.dropWhile_cons_of_neg ha]

theorem mem_of_getLast?_eq (l : List Char) (a : Char) (h : l.getLast? = some a) : a ∈ l := by
  induction l with
  | nil => simp at h
  | cons b l ih =>
    match l, h with
    | [], h => simp at h; simp [h]
    | c :: cs, h =>
      rw [List.getLast?_cons_cons] at h
      exact List.mem_cons_of_mem _ (ih h)

/-- Every field that the splitter produces is non-empty, provided the input
neither starts nor ends with whitespace (and the accumulator invariant
holds).  This is the core of the comparison between `split(/\s+/).length`
and the spec's non-empty token count. -/
theorem splitWsFuel_fields_ne (fuel : Nat) :
    ∀ (s acc : List Char), s.length < fuel →
      (acc ≠ [] ∨ ∃ c cs, s = c :: cs ∧ isWs c = false) →
      (∀ c, s.getLast? = some c → isWs c = false) →
      ∀ f ∈ splitWsFuel fuel s acc, f ≠ [] := by
  induction fuel with
  | zero => intro s acc hlen; omega
  | succ fuel ih =>
    intro s acc hlen h1 h2 f hf
    match s with
    | [] =>
      have hacc : acc ≠ [] := by
        rcases h1 with h1 | ⟨c, cs, hcs, _⟩
        · exact h1
        · simp at hcs
      simp only [splitWsFuel, List.mem_singleton] at hf
      subst hf
      simpa using hacc
    | c :: cs =>
      by_cases hc : isWs c
      · have hacc : acc ≠ [] := by
          rcases h1 with h1 | ⟨c', cs', hcs, hws⟩
          · exact h1
          · cases hcs; rw [hc] at hws; cases hws
        have hcs_ne : cs ≠ [] := by
          intro hnil; subst hnil
          have := h2 c (by simp)
          rw [hc] at this; cases this
        have hlast_cs : ∀ d, cs.getLast? = some d → isWs d = false := by
          intro d hd
          apply h2
          match cs, hcs_ne with
          | b :: bs, _ => rw [List.getLast?_cons_cons]; exact hd
        have hdrop_ne : cs.dropWhile isWs ≠ [] := by
          intro hnil
          rw [List.dropWhile_eq_nil_iff] at hnil
          match cs, hcs_ne with
          | b :: bs, _ =>
            obtain ⟨d, hd⟩ : ∃ d, (b :: bs).getLast? = some d := by
              match bs with
              | [] => exact ⟨b, rfl⟩
              | b' :: bs' => exact ⟨(b' :: bs').getLast (by simp),
                  by rw [List.getLast?_cons_cons]; exact List.getLast?_eq_getLast_of_ne_nil (by simp)⟩
            have hmem := mem_of_getLast?_eq _ _ hd
            have := hnil d hmem
            rw [hlast_cs d hd] at this; cases this
        simp only [splitWsFuel, hc, if_true, List.mem_cons] at hf
        rcases hf with hf | hf
        · subst hf; simpa using hacc
        · obtain ⟨d, ds, hds⟩ : ∃ d ds, cs.dropWhile isWs = d :: ds := by
            match hh : cs.dropWhile isWs, hdrop_ne with
            | d :: ds, _ => exact ⟨d, ds, rfl⟩
          refine ih (cs.dropWhile isWs) [] ?_ ?_ ?_ f hf
          · have := length_dropWhile_le isWs cs
            simp only [List.length_cons] at hlen
            omega
          · right
            exact ⟨d, ds, hds, dropWhile_head_false isWs cs d ds hds⟩
          · intro d' hd'
            rw [getLast?_dropWhile isWs cs hdrop_ne] at hd'
            exact hlast_cs d' hd'
      · simp only [splitWsFuel, hc, if_false] at hf
        refine ih cs (c :: acc) ?_ (Or.inl (by simp)) ?_ f hf
        · simp only [List.length_cons] at hlen; omega
        · intro d hd
          apply h2
          match cs, hd with
          | b :: bs, hd => rw [List.getLast?_cons_cons]; exact hd

/-- For input that neither starts nor ends with whitespace, every
`split(/\s+/)` field is non-empty. -/
theorem splitWs_fields_ne (s : List Char) (c : Char) (cs : List Char)
    (hs : s = c :: cs) (hhead : isWs c = false)
    (hlast : ∀ d, s.getLast? = some d → isWs d = false) :
    ∀ f ∈ splitWs s, f ≠ [] := by
  apply splitWsFuel_fields_ne (s.length + 1) s [] (by omega)
  · right; exact ⟨c, cs, hs, hhead⟩
  · exact hlast

theorem readingTimeOf_eq (w : Nat) : readingTimeOf w = (w + 199) / 200 := by
  unfold readingTimeOf
  rcases Nat.eq_zero_or_pos w with hw | hw
  · subst hw; simp
  · have hm : (w + 199) / 200 ≠ 0 := by omega
    rw [Nat.ceil_eq_iff hm]
    have h1 : 200 * ((w + 199) / 200) ≤ w + 199 := Nat.mul_div_le _ _
    have h2 : w + 199 < 200 * ((w + 199) / 200 + 1) := Nat.lt_mul_div_succ _ (by omega)
    constructor
    · rw [lt_div_iff₀ (by norm_num : (0:ℚ) < 200)]
      have h3 : 200 * ((w + 199) / 200 - 1) < w := by omega
      calc ((((w + 199) / 200 - 1 : ℕ)) : ℚ) * 200
          = ((200 * ((w + 199) / 200 - 1) : ℕ) : ℚ) := by push_cast; ring
        _ < (w : ℚ) := by exact_mod_cast h3
    · rw [div_le_iff₀ (by norm_num : (0:ℚ) < 200)]
      have h3 : w ≤ 200 * ((w + 199) / 200) := by omega
      calc (w : ℚ) ≤ ((200 * ((w + 199) / 200) : ℕ) : ℚ) := by exact_mod_cast h3
        _ = (((w + 199) / 200 : ℕ) : ℚ) * 200 := by push_cast; ring

/-! ### Helper lemmas about the category classifier -/

theorem runMax_cons (tokens : List String) (cat : CategoryDef) (cats : List CategoryDef)
    (m : Nat) : runMax tokens (cat :: cats) m = runMax tokens cats (max m (categoryScore tokens cat)) :=
  rfl

theorem le_runMax (tokens : List String) (cats : List CategoryDef) (m : Nat) :
    m ≤ runMax tokens cats m := by
  induction cats generalizing m with
  | nil => exact le_refl m
  | cons cat cats ih =>
    rw [runMax_cons]
    exact le_trans (le_max_left _ _) (ih _)

/-- If no category beats the seed `m`, the loop keeps its current best. -/
theorem classifyLoop_of_runMax_eq (tokens : List String) (cats : List CategoryDef)
    (m : Nat) (best : String) (h : runMax tokens cats m = m) :
    classifyLoop tokens cats m best = best := by
  induction cats generalizing m best with
  | nil => rfl
  | cons cat cats ih =>
    rw [runMax_cons] at h
    have hle : max m (categoryScore tokens cat) ≤ m := le_of_le_of_eq (le_runMax _ _ _) h
    have hs : categoryScore tokens cat ≤ m := le_trans (le_max_right _ _) hle
    have hmax : max m (categoryScore tokens cat) = m := max_eq_left hs
    simp only [classifyLoop, if_neg (not_lt.mpr hs)]
    rw [hmax] at h
    exact ih _ _ h

/-- If some category beats the seed, the loop returns the name of the first
category whose score equals the overall maximum. -/
theorem classifyLoop_of_lt_runMax (tokens : List String) (cats : List CategoryDef)
    (m : Nat) (best : String) (h : m < runMax tokens cats m) :
    ∃ cat, cats.find? (fun c => categoryScore tokens c == runMax tokens cats m) = some cat ∧
      classifyLoop tokens cats m best = cat.name := by
  induction cats generalizing m best with
  | nil => exact absurd h (lt_irrefl m)
  | cons cat cats ih =>
    rw [runMax_cons] at h ⊢
    by_cases hm : m < categoryScore tokens cat
    · have hmax : max m (categoryScore tokens cat) = categoryScore tokens cat :=
        max_eq_right (le_of_lt hm)
      rw [hmax] at h ⊢
      simp only [classifyLoop, if_pos hm]
      by_cases h2 : runMax tokens cats (categoryScore tokens cat) = categoryScore tokens cat
      · rw [h2]
        refine ⟨cat, ?_, ?_⟩
        · rw [List.find?_cons_of_pos _ (by simp)]
        · exact classifyLoop_of_runMax_eq tokens cats _ _ h2
      · have hlt : categoryScore tokens cat < runMax tokens cats (categoryScore tokens cat) :=
          lt_of_le_of_ne (le_runMax _ _ _) (fun hx => h2 hx.symm)
        obtain ⟨c', hfind, heq⟩ := ih _ cat.name hlt
        refine ⟨c', ?_, heq⟩
        rw [List.find?_cons_of_neg _ (by simp; omega)]
        exact hfind
    · have hs : categoryScore tokens cat ≤ m := not_lt.mp hm
      have hmax : max m (categoryScore tokens cat) = m := max_eq_left hs
      rw [hmax] at h ⊢
      simp only [classifyLoop, if_neg hm]
      obtain ⟨c', hfind, heq⟩ := ih _ best h
      refine ⟨c', ?_, heq⟩
      rw [List.find?_cons_of_neg _ (by simp; omega)]
      exact hfind

/-- The loop's result is either the initial best or the name of a supplied
category. -/
theorem classifyLoop_mem (tokens : List String) (cats : List CategoryDef)
    (m : Nat) (best : String) :
    classifyLoop tokens cats m best = best ∨
      classifyLoop tokens cats m best ∈ cats.map CategoryDef.name := by
  induction cats generalizing m best with
  | nil => left; rfl
  | cons cat cats ih =>
    simp only [classifyLoop]
    by_cases hm : m < categoryScore tokens cat
    · rw [if_pos hm]
      rcases ih (categoryScore tokens cat) cat.name with h | h
      · right; rw [h]; simp
      · right; simp [h]
    · rw [if_neg hm]
      rcases ih m best with h | h
      · left; exact h
      · right; simp [h]

/-- The score only depends on which tokens occur, never on how often. -/
theorem categoryScore_tokens_congr (toks₁ toks₂ : List String)
    (h : ∀ t, t ∈ toks₁ ↔ t ∈ toks₂) (cat : CategoryDef) :
    categoryScore toks₁ cat = categoryScore toks₂ cat := by
  unfold categoryScore
  induction cat.keywords with
  | nil => rfl
  | cons k ks ih =>
    have hk : toks₁.contains (lowerStr k) = toks₂.contains (lowerStr k) := by
      by_cases hmem : lowerStr k ∈ toks₁
      · have h2 := (h _).mp hmem
        simp [List.contains, List.elem_eq_mem, hmem, h2]
      · have h2 : lowerStr k ∉ toks₂ := fun hx => hmem ((h _).mpr hx)
        simp [List.contains, List.elem_eq_mem, hmem, h2]
    simp only [List.countP_cons, hk, ih]

/-- A category scores zero against the empty token list. -/
theorem categoryScore_nil (cat : CategoryDef) : categoryScore [] cat = 0 := by
  unfold categoryScore
  induction cat.keywords with
  | nil => rfl
  | cons k ks ih => simp [List.countP_cons, ih]

theorem runMax_of_all_le (tokens : List String) (cats : List CategoryDef) (m : Nat)
    (h : ∀ cat ∈ cats, categoryScore tokens cat ≤ m) : runMax tokens cats m = m := by
  induction cats generalizing m with
  | nil => rfl
  | cons cat cats ih =>
    rw [runMax_cons, max_eq_left (h cat (by simp))]
    exact ih m (fun c hc => h c (by simp [hc]))

/-! ### Helper lemmas about the term ranking -/

theorem mem_firstOcc (t : String) (l : List String) : t ∈ firstOcc l ↔ t ∈ l := by
  induction l with
  | nil => simp [firstOcc]
  | cons a l ih =>
    simp only [firstOcc, List.mem_cons, List.mem_filter]
    constructor
    · rintro (h | ⟨h, _⟩)
      · exact Or.inl h
      · exact Or.inr (ih.mp h)
    · rintro (h | h)
      · exact Or.inl h
      · by_cases ha : t = a
        · exact Or.inl ha
        · exact Or.inr ⟨ih.mpr h, by simpa using ha⟩

theorem nodup_firstOcc (l : List String) : (firstOcc l).Nodup := by
  induction l with
  | nil => simp [firstOcc]
  | cons a l ih =>
    simp only [firstOcc]
    refine List.Nodup.cons ?_ (List.Nodup.filter _ ih)
    intro hmem
    have := (List.mem_filter.mp hmem).2
    simp at this

theorem insertRanked_perm (cnt : String → Nat) (t : String) (l : List String) :
    (insertRanked cnt t l).Perm (t :: l) := by
  induction l with
  | nil => exact List.Perm.refl _
  | cons u us ih =>
    simp only [insertRanked]
    by_cases h : cnt u ≤ cnt t
    · rw [if_pos h]
    · rw [if_neg h]
      exact List.Perm.trans (List.Perm.cons u ih) (List.Perm.swap t u us)

theorem rankSort_perm (cnt : String → Nat) (l : List String) :
    (rankSort cnt l).Perm l := by
  induction l with
  | nil => exact List.Perm.refl _
  | cons t ts ih =>
    exact List.Perm.trans (insertRanked_perm cnt t _) (List.Perm.cons t ih)

theorem insertRanked_sorted (cnt : String → Nat) (t : String) (l : List String)
    (h : l.Sorted (fun a b => cnt b ≤ cnt a)) :
    (insertRanked cnt t l).Sorted (fun a b => cnt b ≤ cnt a) := by
  induction l with
  | nil => simp [insertRanked]
  | cons u us ih =>
    rw [List.sorted_cons] at h
    obtain ⟨hu, hus⟩ := h
    simp only [insertRanked]
    by_cases hc : cnt u ≤ cnt t
    · rw [if_pos hc, List.sorted_cons]
      refine ⟨?_, List.sorted_cons.mpr ⟨hu, hus⟩⟩
      intro b hb
      rcases List.mem_cons.mp hb with hb | hb
      · subst hb; exact hc
      · exact le_trans (hu b hb) hc
    · rw [if_neg hc, List.sorted_cons]
      constructor
      · intro b hb
        have hb' := (insertRanked_perm cnt t us).mem_iff.mp hb
        rcases List.mem_cons.mp hb' with hb' | hb'
        · subst hb'; omega
        · exact hu b hb'
      · exact ih hus

theorem rankSort_sorted (cnt : String → Nat) (l : List String) :
    (rankSort cnt l).Sorted (fun a b => cnt b ≤ cnt a) := by
  induction l with
  | nil => simp [rankSort]
  | cons t ts ih => exact insertRanked_sorted cnt t _ ih

/-- Stability: within one weight class, `insertRanked` keeps the insertion
order (the new element goes in front of the equally-weighted ones already
present only when it is strictly heavier, and `rankSort` inserts earlier
input elements later). -/
theorem insertRanked_filter (cnt : String → Nat) (t : String) (l : List String) (k : Nat) :
    (insertRanked cnt t l).filter (fun u => cnt u == k)
      = if cnt t = k then t :: l.filter (fun u => cnt u == k)
        else l.filter (fun u => cnt u == k) := by
  induction l with
  | nil =>
    by_cases h : cnt t = k
    · simp [insertRanked, h]
    · simp [insertRanked, h]
  | cons u us ih =>
    simp only [insertRanked]
    by_cases hc : cnt u ≤ cnt t
    · rw [if_pos hc]
      by_cases h : cnt t = k
      · simp [List.filter, h]
      · simp only [List.filter_cons]
        rw [if_neg h]
        simp [h]
    · rw [if_neg hc]
      by_cases h : cnt t = k
      · have hu : ¬ cnt u = k := by omega
        simp only [List.filter_cons, ih]
        rw [if_pos h]
        simp [hu, h]
      · simp only [List.filter_cons, ih]
        simp [h]

theorem rankSort_filter (cnt : String → Nat) (l : List String) (k : Nat) :
    (rankSort cnt l).filter (fun u => cnt u == k) = l.filter (fun u => cnt u == k) := by
  induction l with
  | nil => rfl
  | cons t ts ih =>
    simp only [rankSort, insertRanked_filter, ih, List.filter_cons]
    by_cases h : cnt t = k
    · rw [if_pos h]; simp [h]
    · rw [if_neg h]; simp [h]

theorem tfidfListTerms_single (text : String) :
    tfidfListTerms (tfidfAddDocument tfidfNew text) 0
      = rankSort (termFreq text) (firstOcc (docTokens text)) := rfl

/-! ### Claim theorems -/

/-- Claim C1: the classifier scores each category by counting how many of
its keywords are present among the tokens of the lowercased text — the
score depends only on which tokens occur, never on how often, so each
keyword contributes exactly 1 — and the returned name is that of the first
category, in the supplied order, whose score equals the overall running
maximum (when that maximum is positive); a later category with a merely
equal score never overrides the earlier winner, which is exactly the
strict-greater running-maximum rule of the source loop. -/
theorem classifier_presence_scoring_first_strict_max (text : String) (cats : List CategoryDef) :
    (∀ (toks₁ toks₂ : List String) (cat : CategoryDef),
        (∀ t, t ∈ toks₁ ↔ t ∈ toks₂) → categoryScore toks₁ cat = categoryScore toks₂ cat) ∧
    (runMax (docTokens text) cats 0 = 0 → performClassify text cats = "Uncategorized") ∧
    (0 < runMax (docTokens text) cats 0 →
      ∀ cat, cats.find? (fun c =>
          categoryScore (docTokens text) c == runMax (docTokens text) cats 0) = some cat →
        performClassify text cats = cat.name) := by
  refine ⟨fun toks₁ toks₂ cat h => categoryScore_tokens_congr toks₁ toks₂ h cat, ?_, ?_⟩
  · intro h
    unfold performClassify
    by_cases hc : 0 < cats.length
    · rw [if_pos hc]
      exact classifyLoop_of_runMax_eq _ _ _ _ h
    · rw [if_neg hc]
  · intro hpos cat hfind
    have hne : 0 < cats.length := by
      rcases cats with _ | ⟨c, cs⟩
      · simp [runMax] at hpos
      · simp
    unfold performClassify
    rw [if_pos hne]
    obtain ⟨c', hfind', heq⟩ :=
      classifyLoop_of_lt_runMax (docTokens text) cats 0 "Uncategorized" hpos
    rw [hfind] at hfind'
    cases hfind'
    exact heq

/-- Witness for C1, the spec's end-to-end scenario 1: on the fox/dog text
with the Animals-before-Sports taxonomy the classifier returns
`"Animals"` (score 2 against 1). -/
theorem classifier_presence_scoring_first_strict_max_witness :
    performClassify "The quick brown fox jumps over the lazy dog. The fox runs fast."
      [⟨"Animals", ["fox", "dog"]⟩, ⟨"Sports", ["runs"]⟩] = "Animals" :=
  (classifier_presence_scoring_first_strict_max
      "The quick brown fox jumps over the lazy dog. The fox runs fast."
      [⟨"Animals", ["fox", "dog"]⟩, ⟨"Sports", ["runs"]⟩]).2.2
    (by decide) ⟨"Animals", ["fox", "dog"]⟩ (by decide)

/-- Claim C6: the suggested category is always either the name of one of
the supplied category definitions or the sentinel `"Uncategorized"` (in
particular it is non-empty whenever the supplied names are); it is the
sentinel whenever the taxonomy is empty or no category scores strictly
above zero. -/
theorem suggested_category_name_or_sentinel (text : String) (cats : List CategoryDef) :
    (performClassify text cats = "Uncategorized" ∨
      performClassify text cats ∈ cats.map CategoryDef.name) ∧
    (cats = [] → performClassify text cats = "Uncategorized") ∧
    ((∀ cat ∈ cats, categoryScore (docTokens text) cat = 0) →
      performClassify text cats = "Uncategorized") ∧
    ((∀ cat ∈ cats, cat.name ≠ "") → performClassify text cats ≠ "") := by
  have h1 : performClassify text cats = "Uncategorized" ∨
      performClassify text cats ∈ cats.map CategoryDef.name := by
    unfold performClassify
    by_cases hc : 0 < cats.length
    · rw [if_pos hc]
      exact classifyLoop_mem _ _ _ _
    · rw [if_neg hc]
      left; rfl
  refine ⟨h1, ?_, ?_, ?_⟩
  · intro h; subst h; rfl
  · intro h
    have hrm : runMax (docTokens text) cats 0 = 0 :=
      runMax_of_all_le _ _ _ (fun c hc => le_of_eq (h c hc))
    unfold performClassify
    by_cases hc : 0 < cats.length
    · rw [if_pos hc]
      exact classifyLoop_of_runMax_eq _ _ _ _ hrm
    · rw [if_neg hc]
  · intro h
    rcases h1 with he | hm
    · rw [he]; decide
    · obtain ⟨c, hc, hname⟩ := List.mem_map.mp hm
      rw [← hname]
      exact h c hc

/-- Witness for C6: a taxonomy with no keyword occurring in the text yields
the sentinel. -/
theorem suggested_category_name_or_sentinel_witness :
    performClassify "some random text" [⟨"Animals", ["fox"]⟩] = "Uncategorized" :=
  (suggested_category_name_or_sentinel "some random text" [⟨"Animals", ["fox"]⟩]).2.2.1
    (by decide)

/-- Claim C2: the auto-tag sequence has length at most 5, no duplicates, is
ordered by raw term frequency from highest to lowest, breaks frequency
ties by first occurrence in the tokenized sequence (the filter clause: each
frequency class appears in the order of first occurrence), has exactly
`min 5 (number of distinct terms)` entries — hence fewer than 5 for texts
with fewer distinct terms — is empty for empty text, and puts a term with
strictly maximal frequency first. -/
theorem auto_tags_top5_frequency_ranking (text : String) :
    (autoTagsOf text).length ≤ 5 ∧
    (autoTagsOf text).Nodup ∧
    (autoTagsOf text).Sorted (fun a b => termFreq text b ≤ termFreq text a) ∧
    (∀ k : Nat, (tfidfListTerms (tfidfAddDocument tfidfNew text) 0).filter
        (fun u => termFreq text u == k)
      = (firstOcc (docTokens text)).filter (fun u => termFreq text u == k)) ∧
    (autoTagsOf text).length = min 5 (firstOcc (docTokens text)).length ∧
    (text = "" → autoTagsOf text = []) ∧
    (∀ t, t ∈ docTokens text →
      (∀ u ∈ docTokens text, u ≠ t → termFreq text u < termFreq text t) →
      (autoTagsOf text).head? = some t) := by
  have hAT : autoTagsOf text
      = (rankSort (termFreq text) (firstOcc (docTokens text))).take 5 := by
    rw [autoTagsOf, tfidfListTerms_single]
  have hnodup : (rankSort (termFreq text) (firstOcc (docTokens text))).Nodup :=
    (rankSort_perm _ _).nodup_iff.mpr (nodup_firstOcc _)
  have hsorted := rankSort_sorted (termFreq text) (firstOcc (docTokens text))
  refine ⟨?_, ?_, ?_, ?_, ?_, ?_, ?_⟩
  · rw [hAT]; exact List.length_take_le 5 _
  · rw [hAT]; exact hnodup.sublist (List.take_sublist 5 _)
  · rw [hAT]; exact hsorted.sublist (List.take_sublist 5 _)
  · intro k
    rw [tfidfListTerms_single]
    exact rankSort_filter _ _ k
  · rw [hAT, List.length_take, (rankSort_perm _ _).length_eq]
  · intro h; subst h; rfl
  · intro t ht hmax
    have htf : t ∈ firstOcc (docTokens text) := (mem_firstOcc _ _).mpr ht
    have htL : t ∈ rankSort (termFreq text) (firstOcc (docTokens text)) :=
      (rankSort_perm _ _).mem_iff.mpr htf
    rcases hL : rankSort (termFreq text) (firstOcc (docTokens text)) with _ | ⟨hd, rest⟩
    · rw [hL] at htL; simp at htL
    · rw [hL] at hsorted htL
      have hhd_mem : hd ∈ docTokens text := by
        have : hd ∈ rankSort (termFreq text) (firstOcc (docTokens text)) := by
          rw [hL]; simp
        exact (mem_firstOcc _ _).mp ((rankSort_perm _ _).mem_iff.mp this)
      have hhd : hd = t := by
        by_contra hne
        have htrest : t ∈ rest := by
          rcases List.mem_cons.mp htL with h | h
          · exact absurd h.symm hne
          · exact h
        have hle : termFreq text t ≤ termFreq text hd :=
          (List.sorted_cons.mp hsorted).1 t htrest
        have hlt : termFreq text hd < termFreq text t := hmax hd hhd_mem hne
        omega
      rw [hAT, hL, hhd]
      rfl

/-- Witness for C2, the spec's end-to-end scenario 4: a 50-token text in
which "apple" occurs 10 times and forty other words occur once each puts
"apple" first in `autoTags`. -/
theorem auto_tags_top5_frequency_ranking_witness :
    (docTokens "apple apple apple apple apple apple apple apple apple apple ant bee cat dog elk fox gnu hen ibis jay kit lark mole newt owl pig quail rat seal tuna usher vole wren yak zebra aunt bear coin dome echo fern gale hill iris joke kelp lime mesa nook opal").length = 50 ∧
    termFreq "apple apple apple apple apple apple apple apple apple apple ant bee cat dog elk fox gnu hen ibis jay kit lark mole newt owl pig quail rat seal tuna usher vole wren yak zebra aunt bear coin dome echo fern gale hill iris joke kelp lime mesa nook opal" "apple" = 10 ∧
    (autoTagsOf "apple apple apple apple apple apple apple apple apple apple ant bee cat dog elk fox gnu hen ibis jay kit lark mole newt owl pig quail rat seal tuna usher vole wren yak zebra aunt bear coin dome echo fern gale hill iris joke kelp lime mesa nook opal").head?
      = some "apple" :=
  ⟨by decide, by decide,
    (auto_tags_top5_frequency_ranking
        "apple apple apple apple apple apple apple apple apple apple ant bee cat dog elk fox gnu hen ibis jay kit lark mole newt owl pig quail rat seal tuna usher vole wren yak zebra aunt bear coin dome echo fern gale hill iris joke kelp lime mesa nook opal").2.2.2.2.2.2
      "apple" (by decide) (by decide)⟩

/-- Counterexample for C3: the computed wordCount is
`split(/\s+/).length`, which counts the empty boundary fields that
leading/trailing whitespace produces, and `"".split(/\s+/)` is `[""]`.
For extracted text `" hi "` the code computes 3 while the number of
non-empty whitespace-delimited tokens is 1, and for empty extracted text
from a parsed article the code computes 1, not 0. -/
theorem word_count_boundary_counterexample :
    wordCountOf (some " hi ") ≠ specNonEmptyTokenCount " hi " ∧
    wordCountOf (some " hi ") = 3 ∧ specNonEmptyTokenCount " hi " = 1 ∧
    wordCountOf (some "") ≠ 0 := by decide

/-- Claim C3 as amended: the computed wordCount equals the length of the
`split(/\s+/)` field list of the extracted text; this equals the number of
non-empty whitespace-delimited tokens whenever the extracted text is
non-empty and neither starts nor ends with whitespace, while a missing
article yields 0 and an empty extracted string from a parsed article
yields 1. -/
theorem word_count_splits_on_whitespace (t : String) :
    wordCountOf none = 0 ∧
    wordCountOf (some t) = (splitWs t.data).length ∧
    (t.data ≠ [] → (t.data.head?.all fun c => !isWs c) = true →
      (t.data.getLast?.all fun c => !isWs c) = true →
      wordCountOf (some t) = specNonEmptyTokenCount t) := by
  refine ⟨rfl, rfl, ?_⟩
  intro hne hh hl
  obtain ⟨c, cs, hcs⟩ := List.exists_cons_of_ne_nil hne
  have hhead : isWs c = false := by
    rw [hcs] at hh
    simpa using hh
  have hlast : ∀ d, t.data.getLast? = some d → isWs d = false := by
    intro d hd
    rw [hd] at hl
    simpa using hl
  have hfields := splitWs_fields_ne t.data c cs hcs hhead hlast
  unfold wordCountOf specNonEmptyTokenCount
  rw [List.filter_eq_self.mpr ?_]
  intro f hf
  have := hfields f hf
  simp [List.isEmpty_iff, this]

/-- Witness for C3 (amended): on clean extracted text the field count and
the non-empty token count agree. -/
theorem word_count_splits_on_whitespace_witness :
    wordCountOf (some "hello brave new world") = specNonEmptyTokenCount "hello brave new world" :=
  (word_count_splits_on_whitespace "hello brave new world").2.2
    (by decide) (by decide) (by decide)

/-- Claim C4: readingTime is `Math.ceil(wordCount / 200)` of the computed
wordCount, so wordCount 0 gives 0, any positive wordCount gives at least 1,
and the boundaries are 199 → 1, 200 → 1, 201 → 2. -/
theorem reading_time_is_ceil_div_200 (article : Option String) (cats : List CategoryDef) :
    (performContentAnalysis article cats).readingTime
        = ⌈((performContentAnalysis article cats).wordCount : ℚ) / 200⌉₊ ∧
    ((performContentAnalysis article cats).wordCount = 0 →
      (performContentAnalysis article cats).readingTime = 0) ∧
    (0 < (performContentAnalysis article cats).wordCount →
      1 ≤ (performContentAnalysis article cats).readingTime) ∧
    readingTimeOf 199 = 1 ∧ readingTimeOf 200 = 1 ∧ readingTimeOf 201 = 2 ∧
    readingTimeOf 0 = 0 := by
  have hwc : (performContentAnalysis article cats).wordCount = wordCountOf article := rfl
  have hrt : (performContentAnalysis article cats).readingTime
      = readingTimeOf (wordCountOf article) := rfl
  refine ⟨rfl, ?_, ?_, ?_, ?_, ?_, ?_⟩
  · intro h
    rw [hwc] at h
    rw [hrt, h, readingTimeOf_eq]
  · intro h
    rw [hwc] at h
    rw [hrt, readingTimeOf_eq]
    omega
  · rw [readingTimeOf_eq]
  · rw [readingTimeOf_eq]
  · rw [readingTimeOf_eq]
  · rw [readingTimeOf_eq]

/-- Witness for C4: a two-word article gets a positive wordCount and a
readingTime of at least one minute. -/
theorem reading_time_is_ceil_div_200_witness :
    0 < (performContentAnalysis (some "hello world") []).wordCount ∧
    1 ≤ (performContentAnalysis (some "hello world") []).readingTime :=
  ⟨by decide, (reading_time_is_ceil_div_200 (some "hello world") []).2.2.1 (by decide)⟩

/-- Claim C5: for markup that is empty or whitespace-only,
`analyzeContentService` returns exactly the all-default result
`{wordCount: 0, readingTime: 0, autoTags: [], suggestedCategory:
"Uncategorized"}`, and the result does not depend on the extractor or on
the taxonomy snapshot — the shallow rendering of "extraction, ranking,
classification and the taxonomy fetch are not invoked". -/
theorem analyze_blank_short_circuit (extract : String → Option String)
    (cats : List CategoryDef) (textBody : String)
    (h : ∀ c ∈ textBody.data, isWs c = true) :
    analyzeContentService extract cats textBody = defaultAnalysisResult ∧
    ∀ (extract₂ : String → Option String) (cats₂ : List CategoryDef),
      analyzeContentService extract cats textBody
        = analyzeContentService extract₂ cats₂ textBody := by
  have htrim : jsTrim textBody.data = [] := by
    unfold jsTrim
    rw [List.dropWhile_eq_nil_iff.mpr h]
    rfl
  have hkey : ∀ (e : String → Option String) (c : List CategoryDef),
      analyzeContentService e c textBody = defaultAnalysisResult := by
    intro e c
    unfold analyzeContentService
    rw [if_pos (Or.inr (by rw [htrim]; rfl))]
  exact ⟨hkey extract cats, fun e₂ c₂ => by rw [hkey extract cats, hkey e₂ c₂]⟩

/-- Witness for C5: whitespace-only markup yields the default result even
with an extractor and taxonomy that would otherwise produce tags and a
category. -/
theorem analyze_blank_short_circuit_witness :
    analyzeContentService (fun _ => some "boom boom boom") [⟨"Boom", ["boom"]⟩] " \t\n " =
      defaultAnalysisResult :=
  (analyze_blank_short_circuit (fun _ => some "boom boom boom") [⟨"Boom", ["boom"]⟩] " \t\n "
    (by decide)).1

/-- Claim C7 (extraction modelled from the spec as a total,
`Option`-valued function that returns no article instead of raising): when
extraction identifies no primary content, the analysis core still returns
a result, and that result is exactly the zero-valued default — wordCount
0, readingTime 0, empty autoTags, sentinel category — for every taxonomy. -/
theorem extraction_failure_yields_defaults (extract : String → Option String)
    (cats : List CategoryDef) (markup : String) (h : extract markup = none) :
    analyzeContentService extract cats markup = defaultAnalysisResult ∧
    performContentAnalysis none cats = defaultAnalysisResult := by
  have hclassify : performClassify "" cats = "Uncategorized" := by
    unfold performClassify
    by_cases hc : 0 < cats.length
    · rw [if_pos hc]
      refine classifyLoop_of_runMax_eq _ _ _ _ ?_
      exact runMax_of_all_le _ _ _ (fun c _ => le_of_eq (categoryScore_nil c))
    · rw [if_neg hc]
  have hperf : performContentAnalysis none cats = defaultAnalysisResult := by
    show AnalysisResult.mk (wordCountOf none) (readingTimeOf (wordCountOf none))
        (autoTagsOf "") (performClassify "" cats) = AnalysisResult.mk 0 0 [] "Uncategorized"
    rw [hclassify,
      show readingTimeOf (wordCountOf none) = 0 from by rw [readingTimeOf_eq]; rfl]
    rfl
  refine ⟨?_, hperf⟩
  unfold analyzeContentService
  by_cases hcond : markup.data.length = 0 ∨ (jsTrim markup.data).length = 0
  · rw [if_pos hcond]
  · rw [if_neg hcond, h]
    exact hperf

/-- Witness for C7: malformed markup whose extraction yields no article
produces the zero-valued default result. -/
theorem extraction_failure_yields_defaults_witness :
    analyzeContentService (fun _ => none) [⟨"Animals", ["fox"]⟩] "<div><<<malformed" =
      defaultAnalysisResult :=
  (extraction_failure_yields_defaults (fun _ => none) [⟨"Animals", ["fox"]⟩]
    "<div><<<malformed" rfl).1

/-- Claim C8: analysis invocations are stateless and independent — in a
batch of calls the result at any position is exactly the single-call
result on that input, so two calls on the same (markup, taxonomy) pair
agree no matter what other inputs were analyzed before or after.  The
embedding is faithful to the per-call fresh TfIdf table (line 28) and
fresh token array (line 37); the never-used module-level instance (line
10) adds no shared state. -/
theorem analysis_invocations_stateless (extract : String → Option String)
    (cats : List CategoryDef) (pre₁ pre₂ suf₁ suf₂ : List String) (m : String) :
    (analyzeBatch extract cats (pre₁ ++ m :: suf₁))[pre₁.length]?
        = some (analyzeContentService extract cats m) ∧
    (analyzeBatch extract cats (pre₁ ++ m :: suf₁))[pre₁.length]?
        = (analyzeBatch extract cats (pre₂ ++ m :: suf₂))[pre₂.length]? := by
  have key : ∀ (pre suf : List String),
      (analyzeBatch extract cats (pre ++ m :: suf))[pre.length]?
        = some (analyzeContentService extract cats m) := by
    intro pre suf
    unfold analyzeBatch
    rw [List.getElem?_map, List.getElem?_append_right (le_refl _)]
    simp
  exact ⟨key pre₁ suf₁, by rw [key pre₁ suf₁, key pre₂ suf₂]⟩

/-- Claim C9 fails on the code: there is no configured maximum length
anywhere in the analysis path — every non-blank markup, however long, is
handed in full to the extractor and parsed.  This theorem exhibits the
divergence: the service's behavior is the full pipeline for all non-blank
input, with no length-based rejection or truncation branch. -/
theorem analyze_has_no_length_cap (extract : String → Option String)
    (cats : List CategoryDef) (textBody : String)
    (h : (jsTrim textBody.data).length ≠ 0) :
    analyzeContentService extract cats textBody
      = performContentAnalysis (extract textBody) cats := by
  unfold analyzeContentService
  rw [if_neg ?_]
  rintro (h0 | h0)
  · rw [List.length_eq_zero.mp h0] at h
    exact h rfl
  · exact h h0

set_option maxRecDepth 8192 in
/-- Witness for C9: a 300-character markup is processed by the full
pipeline rather than rejected or truncated. -/
theorem analyze_has_no_length_cap_witness :
    analyzeContentService (fun _ => none) [] (String.mk (List.replicate 300 'a'))
      = performContentAnalysis none [] :=
  analyze_has_no_length_cap (fun _ => none) [] (String.mk (List.replicate 300 'a'))
    (by decide)

/-- Claim C10: `toggleFollowService` throws
`"Users cannot follow themselves."` on a self-follow and leaves the Follow
collection unchanged; for distinct users it creates the follow and returns
`{following: true}` when none existed, and deletes the found follow and
returns `{following: false}` when one did. -/
theorem toggle_follow_self_guard_and_toggle (db : List FollowRec) (a b : String) :
    (a = b → toggleFollowService db a b
      = (db, Except.error "Users cannot follow themselves.")) ∧
    (a ≠ b → db.find? (fun f => f.followerId == a && f.followingId == b) = none →
      toggleFollowService db a b = (db ++ [⟨a, b⟩], Except.ok true)) ∧
    (a ≠ b → ∀ f, db.find? (fun f => f.followerId == a && f.followingId == b) = some f →
      toggleFollowService db a b = (db.erase f, Except.ok false)) := by
  refine ⟨?_, ?_, ?_⟩
  · intro h
    unfold toggleFollowService
    rw [if_pos h]
  · intro h hf
    unfold toggleFollowService
    rw [if_neg h, hf]
  · intro h f hf
    unfold toggleFollowService
    rw [if_neg h, hf]

/-- Witness for C10: the self-follow guard fires, a missing follow is
created with `following: true`, and an existing follow is removed with
`following: false`. -/
theorem toggle_follow_self_guard_and_toggle_witness :
    toggleFollowService [] "u1" "u1" = ([], Except.error "Users cannot follow themselves.") ∧
    toggleFollowService [] "u1" "u2" = ([⟨"u1", "u2"⟩], Except.ok true) ∧
    toggleFollowService [⟨"u1", "u2"⟩] "u1" "u2"
      = (([⟨"u1", "u2"⟩] : List FollowRec).erase ⟨"u1", "u2"⟩, Except.ok false) :=
  ⟨(toggle_follow_self_guard_and_toggle [] "u1" "u1").1 rfl,
   (toggle_follow_self_guard_and_toggle [] "u1" "u2").2.1 (by decide) rfl,
   (toggle_follow_self_guard_and_toggle [⟨"u1", "u2"⟩] "u1" "u2").2.2 (by decide)
     ⟨"u1", "u2"⟩ (by decide)⟩

end CMP
